import Mathlib

/-!
# Verification of `cmd/convert_checkpoint.py` (gomlx/gemma)

A shallow embedding of the checkpoint-to-raw-bytes converter.  The script
loads a Jax/Orbax checkpoint into a nested tree of arrays (the Parameter
Tree), flattens it into (path, array) pairs, and writes for each pair a
`.raw` file (the array's byte buffer) and a `.shape` file (a comma-separated
dtype/shape descriptor) under a target directory.

Modelling choices:
* A numpy/jax array is a `LeafArray`: a dtype, a shape (list of dimension
  sizes) and its in-memory byte buffer (`tobytes` returns the buffer).
* The Parameter Tree is the recursive sum `leaf | node (ordered children)`,
  with the children given as an ordered association list (`PChildren`);
  children order stands for the traversal order of the underlying pytree
  primitive (`jax.tree_util.tree_map_with_path`).
* The filesystem is a map from file names to file contents; writing with
  `open(..., "w"/"wb")` truncates/creates, i.e. replaces the entry.  The
  run of `write_params` is represented by the ordered list of write events
  it performs (`write_params_trace`) and by the filesystem it leaves behind
  (`write_params_fs`, the fold of those events).
* `os.path.expanduser` / `os.path.abspath` are external library functions
  taken as uninterpreted `String → String` parameters; `os.path.join` is
  modelled faithfully after CPython's `posixpath.join`.
-/

/-- Element types as the framework names them (`str(array.dtype)`). -/
inductive Dtype where
  | float32
  | bfloat16
  | float16
  | float64
  | int8
  | int16
  | int32
  | int64
  | uint8
  | bool
deriving DecidableEq

/-- The dtype identifier string, as produced by `str(array.dtype)`. -/
def Dtype.name : Dtype → String
  | .float32 => "float32"
  | .bfloat16 => "bfloat16"
  | .float16 => "float16"
  | .float64 => "float64"
  | .int8 => "int8"
  | .int16 => "int16"
  | .int32 => "int32"
  | .int64 => "int64"
  | .uint8 => "uint8"
  | .bool => "bool"

/-- A leaf array: dense homogeneous buffer with a dtype and a shape.
`buffer` is the exact in-memory byte sequence (one `Nat` per byte). -/
structure LeafArray where
  dtype : Dtype
  shape : List Nat
  buffer : List Nat
deriving DecidableEq

/-- `array.tobytes()`: the exact in-memory byte buffer. -/
def LeafArray.tobytes (a : LeafArray) : List Nat := a.buffer

mutual
/-- A pytree over arrays: a bare leaf, or a nested string-keyed mapping.
A "Parameter Tree" in the spec's sense (§3) is the `node` form. -/
inductive PTree where
  | leaf (a : LeafArray)
  | node (children : PChildren)
deriving DecidableEq

/-- The ordered children of a `PTree.node`: an association list of
(string key, subtree), in the tree's native key order. -/
inductive PChildren where
  | nil
  | cons (key : String) (t : PTree) (rest : PChildren)
deriving DecidableEq
end

/-- `jax.tree_util.DictKey`: a dict-key path entry. -/
structure DictKey where
  key : String
deriving DecidableEq

/-- `path_to_str_tuple(path)`: converts a PyTree path (list of `DictKey`)
to the list of its key strings. -/
def path_to_str_tuple (path : List DictKey) : List String :=
  path.map DictKey.key

mutual
/-- The traversal of `jax.tree_util.tree_map_with_path(append_to_list, params)`
inside `flatten_params`: a depth-first walk that, at every leaf, appends the
pair (string path, leaf) at the end of the accumulator list.  `pfx` is the
key path from the root to `t`. -/
def tree_visit : PTree → List DictKey → List (List String × LeafArray) →
    List (List String × LeafArray)
  | .leaf a, pfx, acc => acc ++ [(path_to_str_tuple pfx, a)]
  | .node cs, pfx, acc => tree_visit_children cs pfx acc

/-- Visits the children of a node in order, extending the key path. -/
def tree_visit_children : PChildren → List DictKey → List (List String × LeafArray) →
    List (List String × LeafArray)
  | .nil, _, acc => acc
  | .cons k t rest, pfx, acc => tree_visit_children rest pfx (tree_visit t (pfx ++ [⟨k⟩]) acc)
end

/-- `flatten_params(params)`: the list of (path, array) pairs, where path is
the list of string keys from the root to the leaf. -/
def flatten_params (params : PTree) : List (List String × LeafArray) :=
  tree_visit params [] []

mutual
/-- Spec-worded flattening (spec §4.2): one pair per leaf, each pair's path
the exact ordered key sequence from the root to that leaf, leaves in
depth-first, native child order. -/
def flattenSpec : PTree → List (List String × LeafArray)
  | .leaf a => [([], a)]
  | .node cs => flattenSpecList cs

/-- Spec-worded flattening of a node's children list. -/
def flattenSpecList : PChildren → List (List String × LeafArray)
  | .nil => []
  | .cons k t rest =>
      (flattenSpec t).map (fun pa => (k :: pa.1, pa.2)) ++ flattenSpecList rest
end

mutual
/-- Number of leaves of a pytree. -/
def numLeaves : PTree → Nat
  | .leaf _ => 1
  | .node cs => numLeavesList cs

/-- Number of leaves below a children list. -/
def numLeavesList : PChildren → Nat
  | .nil => 0
  | .cons _ t rest => numLeaves t + numLeavesList rest
end

/-- Python's `sep.join(l)`. -/
def str_join (sep : String) (l : List String) : String :=
  match l with
  | [] => ""
  | x :: xs => xs.foldl (fun acc s => acc ++ sep ++ s) x

/-- `serialize_shape(array)`: `",".join([str(array.dtype)] + [str(i) for i in array.shape])`. -/
def serialize_shape (a : LeafArray) : String :=
  str_join "," (a.dtype.name :: a.shape.map (fun i => toString i))

/-- Python `s.split(sep)` for a one-character separator: maximal split,
keeping empty fields (`"".split(",") = [""]`). -/
def py_split (s : String) (sep : Char) : List String :=
  (s.data.splitOn sep).map (fun l => String.mk l)

/-- `b.startswith("/")`. -/
def startsWithSlash (s : String) : Bool :=
  s.data.head? = some '/'

/-- `path.endswith("/")`. -/
def endsWithSlash (s : String) : Bool :=
  s.data.getLast? = some '/'

/-- One step of CPython `posixpath.join`: `join(a, b)`.
`if b.startswith(sep): path = b  elif not path or path.endswith(sep):
path += b  else: path += sep + b`. -/
def joinTwo (a b : String) : String :=
  if startsWithSlash b then b
  else if a = "" ∨ endsWithSlash a then a ++ b
  else a ++ "/" ++ b

/-- `os.path.join(base, *segs)` on posix. -/
def os_path_join (base : String) (segs : List String) : String :=
  segs.foldl joinTwo base

/-! ## Filesystem model and the exporter -/

/-- Contents of a file: raw bytes (`open(..., "wb")`) or text
(`open(..., "w")`). -/
inductive FileData where
  | raw (bytes : List Nat)
  | text (content : String)
deriving DecidableEq

/-- A filesystem: a map from file names to file contents. -/
def FS : Type := String → Option FileData

/-- Writing a file truncates/creates it: the entry is replaced. -/
def fsWrite (fs : FS) (nm : String) (d : FileData) : FS :=
  fun m => if m = nm then some d else fs m

/-- One write performed by the loop body of `write_params`; `stem` is
`base_file_path`, the joined path without extension. -/
inductive WEvent where
  | writeRaw (stem : String) (bytes : List Nat)
  | writeShape (stem : String) (content : String)
deriving DecidableEq

/-- The file name an event writes to. -/
def WEvent.fileName : WEvent → String
  | .writeRaw stem _ => stem ++ ".raw"
  | .writeShape stem _ => stem ++ ".shape"

/-- The file contents an event writes. -/
def WEvent.fileData : WEvent → FileData
  | .writeRaw _ b => .raw b
  | .writeShape _ c => .text c

/-- Effect of one write event on the filesystem. -/
def applyEvent (fs : FS) (e : WEvent) : FS :=
  fsWrite fs e.fileName e.fileData

/-- Effect of a sequence of write events, performed in order. -/
def applyTrace : FS → List WEvent → FS
  | fs, [] => fs
  | fs, e :: tr => applyTrace (applyEvent fs e) tr

/-- The two writes performed by one iteration of the loop in
`write_params`: `base_file_path = os.path.join(base_dir, *path)`, then
`open(base_file_path + ".raw", "wb").write(array.tobytes())`, then
`open(base_file_path + ".shape", "w").write(serialize_shape(array))`.
(`os.makedirs` only creates directories, which the file map does not
track.) -/
def write_pair_events (base_dir : String) (pa : List String × LeafArray) : List WEvent :=
  let base_file_path := os_path_join base_dir pa.1
  [.writeRaw base_file_path pa.2.tobytes,
   .writeShape base_file_path (serialize_shape pa.2)]

/-- The ordered sequence of file writes performed by
`write_params(params, base_dir)`; `eu` models `os.path.expanduser`,
applied to `base_dir` on entry. -/
def write_params_trace (eu : String → String) (params : PTree) (base_dir : String) :
    List WEvent :=
  (flatten_params params).flatMap (write_pair_events (eu base_dir))

/-- The filesystem left behind by `write_params(params, base_dir)` run on
the filesystem `fs`. -/
def write_params_fs (eu : String → String) (params : PTree) (base_dir : String)
    (fs : FS) : FS :=
  applyTrace fs (write_params_trace eu params base_dir)

/-! ## Entry point (`main`) -/

/-- The parsed command-line arguments: required positional `source_dir`,
optional `--target_dir`. -/
structure Args where
  source_dir : String
  target_dir : Option String

/-- Python truthiness of `args.target_dir` (an optional string):
`None` and `""` are falsy. -/
def truthyOptStr : Option String → Bool
  | none => false
  | some s => s ≠ ""

/-- `source_dir = os.path.abspath(os.path.expanduser(args.source_dir))`;
`eu`/`ap` are the uninterpreted library functions. -/
def resolve_source_dir (eu ap : String → String) (a : Args) : String :=
  ap (eu a.source_dir)

/-- `target_dir = os.path.abspath(os.path.expanduser(args.target_dir))
if args.target_dir else os.path.join(source_dir, "raw")`. -/
def resolve_target_dir (eu ap : String → String) (a : Args) : String :=
  if truthyOptStr a.target_dir then ap (eu (a.target_dir.getD ""))
  else joinTwo (resolve_source_dir eu ap a) "raw"

/-- Outcome of `main`: the exit result (`.error` = uncaught exception from
the Loader) and the final filesystem.  `load` models
`params_lib.load_and_format_params` (the external Loader);
`read_parameter` applies `os.path.expanduser` to its argument before
calling the Loader.  `params = read_parameter(source_dir)` runs to
completion before `write_params(params, target_dir)` starts. -/
def run_main (eu ap : String → String) (load : String → Except String PTree)
    (a : Args) (fs : FS) : Except String Unit × FS :=
  let source_dir := resolve_source_dir eu ap a
  let target_dir := resolve_target_dir eu ap a
  match load (eu source_dir) with
  | .error e => (.error e, fs)
  | .ok params => (.ok (), write_params_fs eu params target_dir fs)

/-! ## Flattening: the traversal refines the spec-worded flattening -/

mutual
theorem tree_visit_eq : ∀ (t : PTree) (pfx : List DictKey)
      (acc : List (List String × LeafArray)),
    tree_visit t pfx acc =
      acc ++ (flattenSpec t).map (fun pa => (path_to_str_tuple pfx ++ pa.1, pa.2))
  | .leaf a, pfx, acc => by
      simp [tree_visit, flattenSpec]
  | .node cs, pfx, acc => by
      simpa [tree_visit, flattenSpec] using tree_visit_children_eq cs pfx acc

theorem tree_visit_children_eq : ∀ (cs : PChildren) (pfx : List DictKey)
      (acc : List (List String × LeafArray)),
    tree_visit_children cs pfx acc =
      acc ++ (flattenSpecList cs).map (fun pa => (path_to_str_tuple pfx ++ pa.1, pa.2))
  | .nil, pfx, acc => by simp [tree_visit_children, flattenSpecList]
  | .cons k t rest, pfx, acc => by
      rw [tree_visit_children, tree_visit_children_eq rest pfx _,
        tree_visit_eq t _ acc]
      simp [flattenSpecList, path_to_str_tuple, List.map_map, Function.comp_def,
        List.append_assoc]
end

theorem flatten_params_eq (params : PTree) : flatten_params params = flattenSpec params := by
  simp [flatten_params, tree_visit_eq, path_to_str_tuple]

mutual
theorem flattenSpec_length : ∀ t : PTree, (flattenSpec t).length = numLeaves t
  | .leaf _ => by simp [flattenSpec, numLeaves]
  | .node cs => by simpa [flattenSpec, numLeaves] using flattenSpecList_length cs

theorem flattenSpecList_length : ∀ cs : PChildren,
    (flattenSpecList cs).length = numLeavesList cs
  | .nil => by simp [flattenSpecList, numLeavesList]
  | .cons k t rest => by
      simp [flattenSpecList, numLeavesList, flattenSpec_length t,
        flattenSpecList_length rest]
end

theorem flattenSpecList_path_ne_nil : ∀ (cs : PChildren),
    ∀ pa ∈ flattenSpecList cs, pa.1 ≠ []
  | .nil => by simp [flattenSpecList]
  | .cons k t rest => by
      intro pa hpa
      rw [flattenSpecList] at hpa
      rcases List.mem_append.mp hpa with h | h
      · rcases List.mem_map.mp h with ⟨q, _, rfl⟩
        simp
      · exact flattenSpecList_path_ne_nil rest pa h

/-! ## Shape serialization lemmas -/

theorem str_join_foldl_data (sep : String) : ∀ (xs : List String) (x : String),
    (xs.foldl (fun acc s => acc ++ sep ++ s) x).data =
      x.data ++ (xs.map (fun s => sep.data ++ s.data)).flatten
  | [], x => by simp
  | s :: xs, x => by
      rw [List.foldl_cons, str_join_foldl_data sep xs (x ++ sep ++ s)]
      simp [String.data_append]

/-- The characters of `serialize_shape`: the dtype name followed by, for
each dimension in order, a comma and its base-10 digits. -/
theorem serialize_shape_data (a : LeafArray) :
    (serialize_shape a).data =
      a.dtype.name.data ++ (a.shape.map (fun d => ',' :: (toString d).data)).flatten := by
  have hc : (("," : String)).data = [','] := rfl
  rw [serialize_shape, str_join, str_join_foldl_data]
  simp [List.map_map, Function.comp_def, hc]

theorem digitChar_ne_comma (n : Nat) : Nat.digitChar n ≠ ',' := by
  intro hcomma
  rcases Nat.lt_or_ge n 16 with h | h
  · have hall : ∀ m : Nat, m < 16 → Nat.digitChar m ≠ ',' := by decide
    exact hall n h hcomma
  · have hk : ∀ k : Nat, k < 16 → ¬n = k := fun k hklt heq => by omega
    have hstar : Nat.digitChar n = '*' := by
      unfold Nat.digitChar
      rw [if_neg (hk 0 (by omega)), if_neg (hk 1 (by omega)), if_neg (hk 2 (by omega)),
        if_neg (hk 3 (by omega)), if_neg (hk 4 (by omega)), if_neg (hk 5 (by omega)),
        if_neg (hk 6 (by omega)), if_neg (hk 7 (by omega)), if_neg (hk 8 (by omega)),
        if_neg (hk 9 (by omega)), if_neg (hk 10 (by omega)), if_neg (hk 11 (by omega)),
        if_neg (hk 12 (by omega)), if_neg (hk 13 (by omega)), if_neg (hk 14 (by omega)),
        if_neg (hk 15 (by omega))]
    rw [hstar] at hcomma
    exact absurd hcomma (by decide)

theorem toDigitsCore_ne_comma : ∀ (fuel n : Nat) (acc : List Char),
    (∀ c ∈ acc, c ≠ ',') → ∀ c ∈ Nat.toDigitsCore 10 fuel n acc, c ≠ ','
  | 0, n, acc, h => by simpa [Nat.toDigitsCore] using h
  | fuel + 1, n, acc, h => by
      rw [Nat.toDigitsCore]
      split
      · intro c hc
        rcases List.mem_cons.mp hc with rfl | hc
        · exact digitChar_ne_comma _
        · exact h c hc
      · refine toDigitsCore_ne_comma fuel (n / 10) _ ?_
        intro c hc
        rcases List.mem_cons.mp hc with rfl | hc
        · exact digitChar_ne_comma _
        · exact h c hc

theorem toString_nat_no_comma (n : Nat) : ',' ∉ (toString n).data := by
  have hd : (toString n).data = Nat.toDigits 10 n := rfl
  rw [hd]
  intro hmem
  exact toDigitsCore_ne_comma (n + 1) n [] (by simp) ',' hmem rfl

theorem dtype_name_no_comma (d : Dtype) : ',' ∉ d.name.data := by
  cases d <;> decide

theorem intercalate_singleton_cons {α : Type} (c : α) :
    ∀ (xs : List (List α)) (x : List α),
    [c].intercalate (x :: xs) = x ++ (xs.map (fun l => c :: l)).flatten
  | [], x => by simp [List.intercalate]
  | y :: ys, x => by
      have ih := intercalate_singleton_cons c ys y
      rw [List.intercalate] at ih ⊢
      rw [List.intersperse_cons_cons, List.flatten_cons, List.flatten_cons, ih]
      simp

/-- The characters of `serialize_shape` form the comma-intercalation of
the dtype-name field and the decimal dimension fields. -/
theorem serialize_shape_data_intercalate (a : LeafArray) :
    (serialize_shape a).data =
      [','].intercalate
        ((a.dtype.name :: a.shape.map (fun i => toString i)).map String.data) := by
  rw [serialize_shape, str_join, str_join_foldl_data, List.map_cons,
    intercalate_singleton_cons]
  simp [List.map_map, Function.comp_def]

/-! ## Filesystem trace lemmas -/

/-- The last content written to file `nm` by the trace, if any. -/
def traceLast : List WEvent → String → Option FileData
  | [], _ => none
  | e :: tr, nm =>
      match traceLast tr nm with
      | some d => some d
      | none => if nm = e.fileName then some e.fileData else none

theorem applyTrace_append : ∀ (t1 t2 : List WEvent) (fs : FS),
    applyTrace fs (t1 ++ t2) = applyTrace (applyTrace fs t1) t2
  | [], t2, fs => rfl
  | e :: t1, t2, fs => by
      rw [List.cons_append, applyTrace, applyTrace, applyTrace_append t1 t2 (applyEvent fs e)]

theorem applyTrace_not_mem : ∀ (tr : List WEvent) (fs : FS) (nm : String),
    (∀ e ∈ tr, e.fileName ≠ nm) → applyTrace fs tr nm = fs nm
  | [], _, _, _ => rfl
  | e :: tr, fs, nm, h => by
      rw [applyTrace,
        applyTrace_not_mem tr _ nm (fun e' he' => h e' (List.mem_cons_of_mem _ he'))]
      simp only [applyEvent, fsWrite]
      rw [if_neg (fun heq => h e (List.mem_cons_self e tr) heq.symm)]

theorem applyTrace_lookup : ∀ (tr : List WEvent) (fs : FS) (nm : String),
    applyTrace fs tr nm =
      match traceLast tr nm with
      | some d => some d
      | none => fs nm
  | [], fs, nm => rfl
  | e :: tr, fs, nm => by
      rw [applyTrace, applyTrace_lookup tr (applyEvent fs e) nm, traceLast]
      cases h : traceLast tr nm with
      | some d => simp
      | none =>
          simp only [applyEvent, fsWrite]
          split
          · simp
          · simp

theorem applyTrace_idem (tr : List WEvent) (fs : FS) :
    applyTrace (applyTrace fs tr) tr = applyTrace fs tr := by
  funext nm
  rw [applyTrace_lookup, applyTrace_lookup]
  cases h : traceLast tr nm with
  | some d => simp
  | none => simp

/-! ## File-name lemmas -/

theorem string_append_right_cancel {x y s : String} (h : x ++ s = y ++ s) : x = y := by
  apply String.ext
  have hd := congrArg String.data h
  rw [String.data_append, String.data_append] at hd
  exact List.append_cancel_right hd

theorem raw_name_ne_shape_name (x y : String) : x ++ ".raw" ≠ y ++ ".shape" := by
  intro h
  have hd := congrArg String.data h
  rw [String.data_append, String.data_append] at hd
  have hl := congrArg List.getLast? hd
  rw [List.getLast?_append, List.getLast?_append] at hl
  have e1 : (".raw" : String).data.getLast? = some 'w' := rfl
  have e2 : (".shape" : String).data.getLast? = some 'e' := rfl
  rw [e1, e2] at hl
  simp [Option.or] at hl

/-! ## The exporter writes exactly the flattened pairs -/

theorem flatMap_pair_events_length (base : String) :
    ∀ l : List (List String × LeafArray),
      (l.flatMap (write_pair_events base)).length = 2 * l.length
  | [] => rfl
  | pa :: l => by
      simp only [List.flatMap_cons, List.length_append, List.length_cons,
        flatMap_pair_events_length base l, write_pair_events, List.length_nil]
      omega

theorem export_pairs_untouched (base : String) (l : List (List String × LeafArray))
    (fs : FS) (nm : String)
    (h : ∀ pa ∈ l, nm ≠ os_path_join base pa.1 ++ ".raw" ∧
      nm ≠ os_path_join base pa.1 ++ ".shape") :
    applyTrace fs (l.flatMap (write_pair_events base)) nm = fs nm := by
  apply applyTrace_not_mem
  intro e he
  rcases List.mem_flatMap.mp he with ⟨r, hr, her⟩
  simp only [write_pair_events, List.mem_cons, List.not_mem_nil, or_false] at her
  rcases her with rfl | rfl
  · exact fun heq => (h r hr).1 (heq ▸ rfl)
  · exact fun heq => (h r hr).2 (heq ▸ rfl)

theorem export_pairs_lookup (base : String) :
    ∀ (l : List (List String × LeafArray)) (fs : FS) (pa : List String × LeafArray),
      pa ∈ l →
      (l.map (fun q => os_path_join base q.1)).Nodup →
      applyTrace fs (l.flatMap (write_pair_events base)) (os_path_join base pa.1 ++ ".raw")
          = some (.raw pa.2.tobytes) ∧
      applyTrace fs (l.flatMap (write_pair_events base)) (os_path_join base pa.1 ++ ".shape")
          = some (.text (serialize_shape pa.2))
  | [], _, pa, hmem, _ => absurd hmem (List.not_mem_nil pa)
  | q :: l, fs, pa, hmem, hnd => by
      rw [List.flatMap_cons, applyTrace_append]
      rcases List.mem_cons.mp hmem with rfl | hmem'
      · have hstem : ∀ r ∈ l, os_path_join base r.1 ≠ os_path_join base pa.1 := by
          intro r hr heq
          exact (List.nodup_cons.mp hnd).1 (List.mem_map.mpr ⟨r, hr, heq⟩)
        have hfresh : ∀ e ∈ l.flatMap (write_pair_events base),
            (e.fileName ≠ os_path_join base pa.1 ++ ".raw" ∧
             e.fileName ≠ os_path_join base pa.1 ++ ".shape") := by
          intro e he
          rcases List.mem_flatMap.mp he with ⟨r, hr, her⟩
          simp only [write_pair_events, List.mem_cons, List.not_mem_nil, or_false] at her
          rcases her with rfl | rfl
          · exact ⟨fun heq => hstem r hr (string_append_right_cancel heq),
              fun heq => raw_name_ne_shape_name _ _ heq⟩
          · exact ⟨fun heq => raw_name_ne_shape_name _ _ heq.symm,
              fun heq => hstem r hr (string_append_right_cancel heq)⟩
        constructor
        · rw [applyTrace_not_mem _ _ _ (fun e he => (hfresh e he).1)]
          simp only [write_pair_events, applyTrace, applyEvent, fsWrite,
            WEvent.fileName, WEvent.fileData]
          simp
          exact raw_name_ne_shape_name _ _
        · rw [applyTrace_not_mem _ _ _ (fun e he => (hfresh e he).2)]
          simp only [write_pair_events, applyTrace, applyEvent, fsWrite,
            WEvent.fileName, WEvent.fileData]
          simp
      · exact export_pairs_lookup base l (applyTrace fs (write_pair_events base q)) pa
          hmem' (List.nodup_cons.mp hnd).2

/-! ## Write ordering within the trace -/

theorem flatMap_events_shape_after_raw (base : String) :
    ∀ (l : List (List String × LeafArray)) (i : Nat) (st : String) (c : String),
      (l.flatMap (write_pair_events base))[i]? = some (.writeShape st c) →
      ∃ j, j < i ∧ ∃ b, (l.flatMap (write_pair_events base))[j]? = some (.writeRaw st b)
  | [], i, st, c, h => by simp at h
  | pa :: l, i, st, c, h => by
      rw [List.flatMap_cons] at h
      match i with
      | 0 => simp [write_pair_events] at h
      | 1 =>
          refine ⟨0, by omega, pa.2.tobytes, ?_⟩
          simp only [write_pair_events, List.cons_append, List.nil_append,
            List.getElem?_cons_succ, List.getElem?_cons_zero] at h
          rw [List.flatMap_cons]
          simp only [write_pair_events, List.cons_append, List.getElem?_cons_zero]
          cases Option.some.inj h
          rfl
      | n + 2 =>
          have h' : (l.flatMap (write_pair_events base))[n]? = some (.writeShape st c) := by
            simpa [write_pair_events] using h
          obtain ⟨j, hj, b, hb⟩ := flatMap_events_shape_after_raw base l n st c h'
          refine ⟨j + 2, by omega, b, ?_⟩
          rw [List.flatMap_cons]
          simpa [write_pair_events] using hb

/-! ## Path construction: normal form and injectivity -/

theorem data_ne_nil_of_ne_empty {s : String} (h : s ≠ "") : s.data ≠ [] := by
  intro hd
  exact h (String.ext hd)

theorem startsWithSlash_eq_false {s : String} (hne : s ≠ "") (hns : '/' ∉ s.data) :
    startsWithSlash s = false := by
  apply decide_eq_false
  intro h
  exact hns (List.mem_of_getLast?_eq_some (by
    cases hd : s.data with
    | nil => exact absurd hd (data_ne_nil_of_ne_empty hne)
    | cons c rest => exact absurd h (by simp [hd]; intro hc; exact (hc ▸ hns) (hd ▸ List.mem_cons_self c rest))))

theorem getLast?_data_ne_slash {s : String} (hne : s ≠ "") (hns : '/' ∉ s.data) :
    s.data.getLast? ≠ some '/' := by
  intro h
  exact hns (List.mem_of_getLast?_eq_some h)

theorem endsWithSlash_eq_false {s : String} (h : s.data.getLast? ≠ some '/') :
    endsWithSlash s = false := by
  apply decide_eq_false
  exact h

theorem joinTwo_sep {acc s : String} (hacc : acc ≠ "") (hlast : acc.data.getLast? ≠ some '/')
    (hs : s ≠ "" ∧ '/' ∉ s.data) : joinTwo acc s = acc ++ "/" ++ s := by
  unfold joinTwo
  rw [if_neg, if_neg]
  · rintro (h | h)
    · exact hacc h
    · exact hlast (of_decide_eq_true h)
  · intro h
    rw [startsWithSlash_eq_false hs.1 hs.2] at h
    exact Bool.false_ne_true h

theorem foldl_joinTwo_data : ∀ (p : List String) (acc : String), acc ≠ "" →
    acc.data.getLast? ≠ some '/' → (∀ s ∈ p, s ≠ "" ∧ '/' ∉ s.data) →
    (p.foldl joinTwo acc).data = acc.data ++ (p.map (fun s => '/' :: s.data)).flatten
  | [], acc, _, _, _ => by simp
  | s :: p, acc, hacc, hlast, hok => by
      have hs := hok s (List.mem_cons_self s p)
      have hsd : s.data ≠ [] := data_ne_nil_of_ne_empty hs.1
      rw [List.foldl_cons, joinTwo_sep hacc hlast hs]
      have hdata : (acc ++ "/" ++ s).data = acc.data ++ '/' :: s.data := by
        rw [String.data_append, String.data_append,
          show ("/" : String).data = ['/'] from rfl, List.append_assoc]
        rfl
      have hne : acc ++ "/" ++ s ≠ "" := by
        intro h
        have := congrArg String.data h
        rw [hdata] at this
        simp at this
      have hlast' : (acc ++ "/" ++ s).data.getLast? ≠ some '/' := by
        rw [hdata]
        intro h
        rw [List.getLast?_append] at h
        cases hgl : s.data.getLast? with
        | none => exact hsd (List.getLast?_eq_none_iff.mp hgl)
        | some c =>
            rw [show (('/' :: s.data).getLast? : Option Char) = some c by
              rw [List.getLast?_cons, hgl]; rfl] at h
            exact hs.2 (Option.some.inj h ▸ List.mem_of_getLast?_eq_some hgl)
      rw [foldl_joinTwo_data p (acc ++ "/" ++ s) hne hlast'
        (fun x hx => hok x (List.mem_cons_of_mem _ hx))]
      rw [hdata]
      simp

/-- Normal form of `os.path.join` when every segment is nonempty and free
of the path separator: the join is the base (possibly with one separator
inserted) followed by the slash-intercalation of the segments. -/
theorem os_path_join_data (base : String) (s : String) (p : List String)
    (hok : ∀ x ∈ s :: p, x ≠ "" ∧ '/' ∉ x.data) :
    (os_path_join base (s :: p)).data =
      base.data ++ (if base = "" ∨ endsWithSlash base then ([] : List Char) else ['/']) ++
        ['/'].intercalate ((s :: p).map String.data) := by
  have hs := hok s (List.mem_cons_self s p)
  have hsd : s.data ≠ [] := data_ne_nil_of_ne_empty hs.1
  have hrest : ∀ x ∈ p, x ≠ "" ∧ '/' ∉ x.data :=
    fun x hx => hok x (List.mem_cons_of_mem _ hx)
  have hstart : startsWithSlash s = false := startsWithSlash_eq_false hs.1 hs.2
  have hacc_last : ∀ pre : List Char, (pre ++ s.data).getLast? ≠ some '/' := by
    intro pre h
    rw [List.getLast?_append] at h
    cases hgl : s.data.getLast? with
    | none => exact hsd (List.getLast?_eq_none_iff.mp hgl)
    | some c =>
        rw [hgl] at h
        exact hs.2 (Option.some.inj h ▸ List.mem_of_getLast?_eq_some hgl)
  rw [List.map_cons, intercalate_singleton_cons]
  unfold os_path_join
  rw [List.foldl_cons]
  by_cases hbase : base = "" ∨ endsWithSlash base
  · have hj : joinTwo base s = base ++ s := by
      unfold joinTwo
      rw [if_neg (fun h => Bool.false_ne_true (hstart ▸ h)), if_pos hbase]
    rw [hj, if_pos hbase]
    have hne : base ++ s ≠ "" := by
      intro h
      have hd := congrArg String.data h
      rw [String.data_append] at hd
      exact hsd (List.append_eq_nil.mp hd).2
    have hlast : (base ++ s).data.getLast? ≠ some '/' := by
      rw [String.data_append]
      exact hacc_last base.data
    rw [foldl_joinTwo_data p (base ++ s) hne hlast hrest, String.data_append]
    simp [List.map_map, Function.comp_def]
  · have hj : joinTwo base s = base ++ "/" ++ s := by
      unfold joinTwo
      rw [if_neg (fun h => Bool.false_ne_true (hstart ▸ h)), if_neg hbase]
    rw [hj, if_neg hbase]
    have hdata : (base ++ "/" ++ s).data = base.data ++ '/' :: s.data := by
      rw [String.data_append, String.data_append,
        show ("/" : String).data = ['/'] from rfl, List.append_assoc]
      rfl
    have hne : base ++ "/" ++ s ≠ "" := by
      intro h
      have hd := congrArg String.data h
      rw [hdata] at hd
      simp at hd
    have hlast : (base ++ "/" ++ s).data.getLast? ≠ some '/' := by
      rw [hdata, show (base.data ++ '/' :: s.data : List Char) = (base.data ++ ['/']) ++ s.data
        by simp]
      exact hacc_last _
    rw [foldl_joinTwo_data p (base ++ "/" ++ s) hne hlast hrest, hdata]
    simp [List.map_map, Function.comp_def]

/-- Injectivity of stem construction for separator-free, nonempty keys. -/
theorem os_path_join_inj (base : String) (p q : List String)
    (hp : p ≠ []) (hq : q ≠ [])
    (hpok : ∀ x ∈ p, x ≠ "" ∧ '/' ∉ x.data)
    (hqok : ∀ x ∈ q, x ≠ "" ∧ '/' ∉ x.data)
    (hne : p ≠ q) : os_path_join base p ≠ os_path_join base q := by
  intro heq
  apply hne
  cases p with
  | nil => exact absurd rfl hp
  | cons s p' =>
    cases q with
    | nil => exact absurd rfl hq
    | cons t q' =>
      have hd := congrArg String.data heq
      rw [os_path_join_data base s p' hpok, os_path_join_data base t q' hqok,
        List.append_assoc, List.append_assoc] at hd
      have hI := List.append_cancel_left (List.append_cancel_left hd)
      have hxp : ∀ l ∈ (s :: p').map String.data, '/' ∉ l := by
        intro l hl
        rcases List.mem_map.mp hl with ⟨x, hx, rfl⟩
        exact (hpok x hx).2
      have hxq : ∀ l ∈ (t :: q').map String.data, '/' ∉ l := by
        intro l hl
        rcases List.mem_map.mp hl with ⟨x, hx, rfl⟩
        exact (hqok x hx).2
      have h1 : ((s :: p').map String.data) = ((t :: q').map String.data) :=
        calc (s :: p').map String.data
            = (['/'].intercalate ((s :: p').map String.data)).splitOn '/' :=
              (List.splitOn_intercalate ((s :: p').map String.data) '/' hxp (by simp)).symm
          _ = (['/'].intercalate ((t :: q').map String.data)).splitOn '/' := by rw [hI]
          _ = (t :: q').map String.data := List.splitOn_intercalate ((t :: q').map String.data) '/' hxq (by simp)
      exact List.map_injective_iff.mpr (fun a b hab => String.ext hab) h1

/-! ## Sample values used by concrete witnesses -/

/-- A 2-by-2 float32 array (bytes of 1.0, 2.0, 3.0, 4.0, little-endian). -/
def sampleArr : LeafArray :=
  ⟨.float32, [2, 2], [0, 0, 128, 63, 0, 0, 0, 64, 0, 0, 64, 64, 0, 0, 128, 64]⟩

/-- A scalar int32 array. -/
def sampleArrB : LeafArray := ⟨.int32, [], [1, 0, 0, 0]⟩

/-- Children of the sample Parameter Tree `{"layer0": {"w": sampleArr}}`. -/
def sampleChildren : PChildren :=
  .cons "layer0" (.node (.cons "w" (.leaf sampleArr) .nil)) .nil

/-- The sample Parameter Tree. -/
def sampleTree : PTree := .node sampleChildren

/-- Children of a well-formed tree whose two distinct leaf paths
collide as file stems: `{"a": {"b": ...}, "a/b": ...}`. -/
def collideChildren : PChildren :=
  .cons "a" (.node (.cons "b" (.leaf sampleArr) .nil))
    (.cons "a/b" (.leaf sampleArrB) .nil)

theorem string_mk_data (s : String) : String.mk s.data = s := rfl

/-! ## The claims -/

/-- C1: for every Parameter Tree whose leaves have pairwise distinct file
stems, running the Exporter produces exactly one `.raw`/`.shape` file pair
per leaf — the final filesystem holds, for each leaf, its exact byte buffer
under `<stem>.raw` and its shape line under `<stem>.shape`, regardless of
any pre-existing file at those paths (truncate/replace); every file name not
belonging to a leaf is untouched (no extra files); and the run performs
exactly two writes per leaf. -/
theorem write_params_output_files (eu : String → String) (params : PTree)
    (base_dir : String) (fs : FS)
    (hnd : ((flatten_params params).map (fun pa => os_path_join (eu base_dir) pa.1)).Nodup) :
    (∀ pa ∈ flatten_params params,
       write_params_fs eu params base_dir fs (os_path_join (eu base_dir) pa.1 ++ ".raw")
           = some (FileData.raw pa.2.tobytes) ∧
       write_params_fs eu params base_dir fs (os_path_join (eu base_dir) pa.1 ++ ".shape")
           = some (FileData.text (serialize_shape pa.2)))
    ∧ (∀ nm : String,
        (∀ pa ∈ flatten_params params,
          nm ≠ os_path_join (eu base_dir) pa.1 ++ ".raw" ∧
          nm ≠ os_path_join (eu base_dir) pa.1 ++ ".shape") →
        write_params_fs eu params base_dir fs nm = fs nm)
    ∧ (write_params_trace eu params base_dir).length = 2 * numLeaves params := by
  refine ⟨?_, ?_, ?_⟩
  · intro pa hmem
    exact export_pairs_lookup (eu base_dir) (flatten_params params) fs pa hmem hnd
  · intro nm h
    exact export_pairs_untouched (eu base_dir) (flatten_params params) fs nm h
  · rw [write_params_trace, flatMap_pair_events_length, flatten_params_eq,
      flattenSpec_length]

theorem write_params_output_files_witness :
    write_params_fs id sampleTree "/out" (fun _ => none)
        (os_path_join "/out" ["layer0", "w"] ++ ".raw")
      = some (FileData.raw sampleArr.tobytes) :=
  ((write_params_output_files id sampleTree "/out" (fun _ => none) (by decide)).1
    (["layer0", "w"], sampleArr) (by decide)).1

/-- C2: `serialize_shape` returns the dtype name followed by one
comma-prefixed base-10 field per dimension, in order; a 0-dimensional array
yields exactly the dtype name with no trailing comma. -/
theorem serialize_shape_fields (a : LeafArray) :
    (serialize_shape a).data =
      a.dtype.name.data ++ (a.shape.map (fun d => ',' :: (toString d).data)).flatten ∧
    (a.shape = [] → serialize_shape a = a.dtype.name) := by
  refine ⟨serialize_shape_data a, fun h => ?_⟩
  rw [serialize_shape, h]
  simp [str_join]

theorem serialize_shape_fields_witness :
    serialize_shape sampleArrB = "int32" :=
  (serialize_shape_fields sampleArrB).2 rfl

/-- C3: `flatten_params` is a pure function returning exactly the
spec-worded flattening: one (path, array) pair per leaf, each path the
exact ordered key sequence from the root to that leaf, in depth-first
native-order traversal; its length is the number of leaves. -/
theorem flatten_params_refines_spec (params : PTree) :
    flatten_params params = flattenSpec params ∧
    (flatten_params params).length = numLeaves params :=
  ⟨flatten_params_eq params, by rw [flatten_params_eq, flattenSpec_length]⟩

/-- C4 counterexample: a well-formed Parameter Tree with two leaves at the
distinct key sequences `["a", "b"]` and `["a/b"]` produces identical file
stems, refuting injectivity of path construction over distinct leaves. -/
theorem stem_collision_counterexample :
    flatten_params (PTree.node collideChildren) =
      [(["a", "b"], sampleArr), (["a/b"], sampleArrB)] ∧
    (["a", "b"] : List String) ≠ ["a/b"] ∧
    os_path_join "/out" ["a", "b"] = os_path_join "/out" ["a/b"] := by
  exact ⟨by decide, by decide, by decide⟩

/-- C4 (amended): path construction is injective over distinct leaves
provided every key is nonempty and contains no path separator: distinct
key sequences of such keys yield distinct file stems. -/
theorem stems_injective_for_separator_free_keys (base : String) (p q : List String)
    (hp : p ≠ []) (hq : q ≠ [])
    (hpok : ∀ x ∈ p, x ≠ "" ∧ '/' ∉ x.data)
    (hqok : ∀ x ∈ q, x ≠ "" ∧ '/' ∉ x.data)
    (hne : p ≠ q) : os_path_join base p ≠ os_path_join base q :=
  os_path_join_inj base p q hp hq hpok hqok hne

theorem stems_injective_for_separator_free_keys_witness :
    os_path_join "/out" ["a"] ≠ os_path_join "/out" ["b"] :=
  stems_injective_for_separator_free_keys "/out" ["a"] ["b"]
    (by decide) (by decide) (by decide) (by decide) (by decide)

/-- C5: splitting the output of `serialize_shape` on commas recovers the
dtype name as field 0 and the decimal representations of the shape
dimensions, in order, as the remaining fields. -/
theorem shape_string_roundtrip (a : LeafArray) :
    py_split (serialize_shape a) ',' =
      a.dtype.name :: a.shape.map (fun i => toString i) := by
  rw [py_split, serialize_shape_data_intercalate]
  rw [List.splitOn_intercalate
    ((a.dtype.name :: a.shape.map (fun i => toString i)).map String.data) ',' ?hx (by simp)]
  · simp [List.map_map, Function.comp_def, string_mk_data]
  case hx =>
    intro l hl
    rcases List.mem_map.mp hl with ⟨s, hs, rfl⟩
    rcases List.mem_cons.mp hs with rfl | hs'
    · exact dtype_name_no_comma a.dtype
    · rcases List.mem_map.mp hs' with ⟨n, _, rfl⟩
      exact toString_nat_no_comma n

/-- C6: running the conversion twice with the same parameters and target
over any starting filesystem leaves exactly the filesystem of a single run:
every write truncates/creates, so the second run replaces the first run's
files with identical content. -/
theorem conversion_idempotent (eu : String → String) (params : PTree)
    (base_dir : String) (fs : FS) :
    write_params_fs eu params base_dir (write_params_fs eu params base_dir fs)
      = write_params_fs eu params base_dir fs :=
  applyTrace_idem (write_params_trace eu params base_dir) fs

/-- C7: loading completes before the first write; if the Loader fails, the
run aborts with that error and the filesystem is completely unchanged. -/
theorem load_failure_leaves_fs_unchanged (eu ap : String → String)
    (load : String → Except String PTree) (a : Args) (fs : FS) (e : String)
    (h : load (eu (resolve_source_dir eu ap a)) = .error e) :
    run_main eu ap load a fs = (.error e, fs) := by
  simp [run_main, h]

theorem load_failure_leaves_fs_unchanged_witness :
    run_main id id (fun _ => Except.error "invalid checkpoint")
        ⟨"/ckpt", none⟩ (fun _ => none)
      = (Except.error "invalid checkpoint", fun _ => none) :=
  load_failure_leaves_fs_unchanged id id (fun _ => Except.error "invalid checkpoint")
    ⟨"/ckpt", none⟩ (fun _ => none) "invalid checkpoint" rfl

/-- C8: with no `--target_dir`, and likewise with an empty one, the target
resolves to the `raw` subdirectory of the resolved source directory; a
non-empty `--target_dir` is used after home-expansion and absolutization;
and for a nonempty, non-slash-terminated source the default is literally
`<source>/raw`. -/
theorem target_dir_resolution :
    (∀ (eu ap : String → String) (s : String),
       resolve_target_dir eu ap ⟨s, none⟩
         = joinTwo (resolve_source_dir eu ap ⟨s, none⟩) "raw")
    ∧ (∀ (eu ap : String → String) (s : String),
       resolve_target_dir eu ap ⟨s, some ""⟩
         = joinTwo (resolve_source_dir eu ap ⟨s, some ""⟩) "raw")
    ∧ (∀ (eu ap : String → String) (s t : String), t ≠ "" →
       resolve_target_dir eu ap ⟨s, some t⟩ = ap (eu t))
    ∧ (∀ src : String, src ≠ "" → endsWithSlash src = false →
       joinTwo src "raw" = src ++ "/raw") := by
  refine ⟨?_, ?_, ?_, ?_⟩
  · intro eu ap s
    simp [resolve_target_dir, truthyOptStr]
  · intro eu ap s
    simp [resolve_target_dir, truthyOptStr]
  · intro eu ap s t ht
    simp [resolve_target_dir, truthyOptStr, ht]
  · intro src h1 h2
    unfold joinTwo
    rw [if_neg, if_neg]
    · apply String.ext
      simp [String.data_append]
    · rintro (h | h)
      · exact h1 h
      · rw [h2] at h
        exact Bool.false_ne_true h
    · intro h
      rw [show startsWithSlash "raw" = false from rfl] at h
      exact Bool.false_ne_true h

theorem target_dir_resolution_witness :
    resolve_target_dir id id ⟨"/ckpt", some "/out"⟩ = "/out" ∧
    joinTwo "/ckpt" "raw" = "/ckpt/raw" :=
  ⟨target_dir_resolution.2.2.1 id id "/ckpt" "/out" (by decide),
   target_dir_resolution.2.2.2 "/ckpt" (by decide) (by decide)⟩

/-- C9: every leaf of a Parameter Tree (a tree whose root is a mapping)
is reached by a nonempty sequence of string keys, so every exported stem
has at least one path segment under the target root. -/
theorem parameter_paths_nonempty (cs : PChildren) (p : List String) (a : LeafArray)
    (h : (p, a) ∈ flatten_params (PTree.node cs)) : p ≠ [] := by
  rw [flatten_params_eq] at h
  exact flattenSpecList_path_ne_nil cs (p, a) h

theorem parameter_paths_nonempty_witness :
    ((["layer0", "w"], sampleArr) ∈ flatten_params (PTree.node sampleChildren)) ∧
    (["layer0", "w"] : List String) ≠ [] :=
  ⟨by decide,
   parameter_paths_nonempty sampleChildren ["layer0", "w"] sampleArr (by decide)⟩

/-- C10: within the write trace, every `.shape` write is preceded by a
`.raw` write for the same stem: at no intermediate point of a run does a
leaf's `.shape` file exist without its sibling `.raw` file already fully
written. -/
theorem raw_written_before_shape (eu : String → String) (params : PTree)
    (base_dir : String) (i : Nat) (st c : String)
    (h : (write_params_trace eu params base_dir)[i]? = some (.writeShape st c)) :
    ∃ j, j < i ∧ ∃ b,
      (write_params_trace eu params base_dir)[j]? = some (.writeRaw st b) :=
  flatMap_events_shape_after_raw (eu base_dir) (flatten_params params) i st c h

theorem raw_written_before_shape_witness :
    ∃ j, j < 1 ∧ ∃ b,
      (write_params_trace id sampleTree "/out")[j]?
        = some (WEvent.writeRaw (os_path_join "/out" ["layer0", "w"]) b) :=
  raw_written_before_shape id sampleTree "/out" 1
    (os_path_join "/out" ["layer0", "w"]) (serialize_shape sampleArr) (by decide)
